import Mathlib

/-!
Verification of the SHA-256 implementation in `src/sha-256.py` against its
natural-language specification.

The Python source is shallowly embedded over `Nat`: bytes are naturals below
256, 32-bit words are naturals kept below `2 ^ 32` by explicit masking with
`&&& 0xFFFFFFFF`, exactly as the source masks with `& 0xFFFFFFFF`.  Fallible
steps (`int.to_bytes` overflow) are modelled with `Option`.
-/

namespace Sha256

/-- Models `rotr` from the source.  Python's `&` binds tighter than `|`, so the
source line `(x >> n) | (x << (32 - n)) & 0xFFFFFFFF` masks only the shifted
left part. -/
def rotr (x n : Nat) : Nat :=
  (x >>> n) ||| ((x <<< (32 - n)) &&& 0xFFFFFFFF)

/-- Models `shr` from the source: plain logical right shift. -/
def shr (x n : Nat) : Nat :=
  x >>> n

/-- Models `ch` from the source: `(x & y) ^ (~x & z)`.  At every call site the
arguments are 32-bit values, for which Python's `~x & z` agrees with
`(x ^ 0xFFFFFFFF) & z`. -/
def ch (x y z : Nat) : Nat :=
  (x &&& y) ^^^ ((x ^^^ 0xFFFFFFFF) &&& z)

/-- Models `maj` from the source: `(x & y) ^ (x & z) ^ (y & z)`. -/
def maj (x y z : Nat) : Nat :=
  (x &&& y) ^^^ (x &&& z) ^^^ (y &&& z)

/-- Models `sigma0_256` from the source. -/
def sigma0_256 (x : Nat) : Nat :=
  rotr x 2 ^^^ rotr x 13 ^^^ rotr x 22

/-- Models `sigma1_256` from the source. -/
def sigma1_256 (x : Nat) : Nat :=
  rotr x 6 ^^^ rotr x 11 ^^^ rotr x 25

/-- Models `sigma0_256_small` from the source. -/
def sigma0_256_small (x : Nat) : Nat :=
  rotr x 7 ^^^ rotr x 18 ^^^ shr x 3

/-- Models `sigma1_256_small` from the source. -/
def sigma1_256_small (x : Nat) : Nat :=
  rotr x 17 ^^^ rotr x 19 ^^^ shr x 10

/-- Models the constant table `K_256` from the source (the source writes the
64 round constants in hexadecimal; they are transcribed here in decimal,
value for value, in the same order). -/
def K_256 : List Nat := [
  1116352408, 1899447441, 3049323471, 3921009573, 961987163, 1508970993,
  2453635748, 2870763221, 3624381080, 310598401, 607225278, 1426881987,
  1925078388, 2162078206, 2614888103, 3248222580, 3835390401, 4022224774,
  264347078, 604807628, 770255983, 1249150122, 1555081692, 1996064986,
  2554220882, 2821834349, 2952996808, 3210313671, 3336571891, 3584528711,
  113926993, 338241895, 666307205, 773529912, 1294757372, 1396182291,
  1695183700, 1986661051, 2177026350, 2456956037, 2730485921, 2820302411,
  3259730800, 3345764771, 3516065817, 3600352804, 4094571909, 275423344,
  430227734, 506948616, 659060556, 883997877, 958139571, 1322822218,
  1537002063, 1747873779, 1955562222, 2024104815, 2227730452, 2361852424,
  2428436474, 2756734187, 3204031479, 3329325298]

/-- Models Python's `n.to_bytes(len, 'big')`, which raises `OverflowError`
(modelled as `none`) when `n` does not fit in `len` bytes. -/
def toBytesBE (n len : Nat) : Option (List Nat) :=
  if n < 2 ^ (8 * len) then
    some ((List.range len).map (fun i => n / 2 ^ (8 * (len - 1 - i)) % 256))
  else
    none

/-- Models the `while (len(padded_message) * 8) % 512 != 448` loop of
`padding`, which appends zero bytes one at a time.  The loop appends at most
63 bytes, so a fuel of 64 always suffices; the fuel only makes the recursion
structural. -/
def padZerosAux : Nat → List Nat → List Nat
  | 0, l => l
  | fuel + 1, l => if (l.length * 8) % 512 = 448 then l else padZerosAux fuel (l ++ [0])

/-- Models `padding` from the source: append `0x80`, zero-fill to 448 bits
modulo 512, then append the original bit length as 8 big-endian bytes. -/
def padding (message_bytes : List Nat) : Option (List Nat) :=
  let message_bit_length := message_bytes.length * 8
  let padded_message := padZerosAux 64 (message_bytes ++ [0x80])
  match toBytesBE message_bit_length 8 with
  | some length_bytes => some (padded_message ++ length_bytes)
  | none => none

/-- Models Python's `int.from_bytes(bs, 'big')`; an empty slice yields `0`. -/
def fromBytesBE (bs : List Nat) : Nat :=
  bs.foldl (fun acc b => acc * 256 + b) 0

/-- Models `parse_message` from the source.  The Python loop
`for i in range(0, len(padded_message), 64)` runs `⌈len/64⌉` times; each
64-byte chunk is cut into sixteen 4-byte big-endian groups
(`for j in range(0, 64, 4)`).  Python slices past the end are short or empty,
which `drop`/`take` reproduce exactly. -/
def parse_message (padded_message : List Nat) : List (List Nat) :=
  (List.range ((padded_message.length + 63) / 64)).map (fun i =>
    (List.range 16).map (fun j =>
      fromBytesBE ((((padded_message.drop (64 * i)).take 64).drop (4 * j)).take 4)))

/-- Models the initial hash value `h` set at the top of
`sha256_hash_computation` (the source's hexadecimal constants transcribed in
decimal, value for value). -/
def initialHash : List Nat :=
  [1779033703, 3144134277, 1013904242, 2773480762,
   1359893119, 2600822924, 528734635, 1541459225]

/-- Models the message-schedule loop of `sha256_hash_computation`:
`w = block[:]` followed by `for t in range(16, 64): w.append(...)`. -/
def messageSchedule (block : List Nat) : List Nat :=
  (List.range' 16 48).foldl (fun w t =>
    w ++ [(w.getD (t - 16) 0 + sigma0_256_small (w.getD (t - 15) 0) + w.getD (t - 7) 0
           + sigma1_256_small (w.getD (t - 2) 0)) &&& 0xFFFFFFFF]) block

/-- Models one iteration of the `for t in range(64)` round loop of
`sha256_hash_computation` on the working variables `(a, ..., h_temp)`. -/
def roundStep (w : List Nat) (vars : Nat × Nat × Nat × Nat × Nat × Nat × Nat × Nat)
    (t : Nat) : Nat × Nat × Nat × Nat × Nat × Nat × Nat × Nat :=
  match vars with
  | (a, b, c, d, e, f, g, h_temp) =>
    let s1 := sigma1_256 e
    let ch_val := ch e f g
    let temp1 := (h_temp + s1 + ch_val + K_256.getD t 0 + w.getD t 0) &&& 0xFFFFFFFF
    let s0 := sigma0_256 a
    let maj_val := maj a b c
    let temp2 := (s0 + maj_val) &&& 0xFFFFFFFF
    ((temp1 + temp2) &&& 0xFFFFFFFF, a, b, c, (d + temp1) &&& 0xFFFFFFFF, e, f, g)

/-- Models the body of the `for block in message_blocks` loop of
`sha256_hash_computation`: schedule expansion, 64 rounds seeded from `h`,
then `h[i] = (h[i] + [a, ..., h_temp][i]) & 0xFFFFFFFF`. -/
def processBlock (h block : List Nat) : List Nat :=
  let w := messageSchedule block
  match (List.range 64).foldl (roundStep w)
      (h.getD 0 0, h.getD 1 0, h.getD 2 0, h.getD 3 0,
       h.getD 4 0, h.getD 5 0, h.getD 6 0, h.getD 7 0) with
  | (a, b, c, d, e, f, g, h_temp) =>
    (List.range 8).map (fun i => (h.getD i 0 + [a, b, c, d, e, f, g, h_temp].getD i 0) &&& 0xFFFFFFFF)

/-- Models `sha256_hash_computation` from the source.  The `return h`
statement sits inside the `for block in message_blocks` loop, so the function
returns after processing the first block only; with an empty block list the
loop body never runs and the function falls through, returning Python `None`
(modelled as `none`). -/
def sha256_hash_computation (message_blocks : List (List Nat)) : Option (List Nat) :=
  match message_blocks with
  | [] => none
  | block :: _ => some (processBlock initialHash block)

/-- Models one character of Python's `f string` format `08x`: lowercase hex
digit. -/
def hexDigit (n : Nat) : Char :=
  if n < 10 then Char.ofNat (48 + n) else Char.ofNat (87 + n)

/-- Models Python's `f'\x7bx:08x\x7d'`: eight lowercase hex characters with
leading zeros. -/
def toHex8 (x : Nat) : List Char :=
  (List.range 8).map (fun i => hexDigit (x / 16 ^ (7 - i) % 16))

/-- Models `sha256` from the source: padding, parsing, hash computation, then
`''.join(f'\x7bx:08x\x7d' for x in final_hash)`. -/
def sha256 (message : List Nat) : Option String :=
  match padding message with
  | none => none
  | some padded_message =>
    match sha256_hash_computation (parse_message padded_message) with
    | none => none
    | some final_hash => some (String.mk (final_hash.map toHex8).flatten)

/-- Follows the spec's words (§4.3): the message-schedule recurrence
`W[t] = (W[t-16] + s0(W[t-15]) + W[t-7] + s1(W[t-2])) mod 2^32`, with
`W[t]` for `t < 16` the block's own words. -/
def Wspec (block : List Nat) (t : Nat) : Nat :=
  if t < 16 then block.getD t 0
  else (Wspec block (t - 16) + sigma0_256_small (Wspec block (t - 15)) + Wspec block (t - 7)
        + sigma1_256_small (Wspec block (t - 2))) % 2 ^ 32
termination_by t
decreasing_by all_goals omega

/-- Follows the spec's words: the full 64-word message schedule. -/
def scheduleSpec (block : List Nat) : List Nat :=
  (List.range 64).map (Wspec block)

/-- Follows the spec's words (§4.3): `T1 = (h + S1(e) + Ch(e,f,g) + K[t] + W[t]) mod 2^32`. -/
def specT1 (w : List Nat) (t e f g h : Nat) : Nat :=
  (h + sigma1_256 e + ch e f g + K_256.getD t 0 + w.getD t 0) % 2 ^ 32

/-- Follows the spec's words (§4.3): `T2 = (S0(a) + Maj(a,b,c)) mod 2^32`. -/
def specT2 (a b c : Nat) : Nat :=
  (sigma0_256 a + maj a b c) % 2 ^ 32

/-- Follows the spec's words (§4.3): one T1/T2 round,
`(h,g,f,e,d,c,b,a) ← (g, f, e, (d+T1) mod 2^32, c, b, a, (T1+T2) mod 2^32)`. -/
def specRound (w : List Nat) (vars : Nat × Nat × Nat × Nat × Nat × Nat × Nat × Nat)
    (t : Nat) : Nat × Nat × Nat × Nat × Nat × Nat × Nat × Nat :=
  match vars with
  | (a, b, c, d, e, f, g, h) =>
    ((specT1 w t e f g h + specT2 a b c) % 2 ^ 32, a, b, c,
     (d + specT1 w t e f g h) % 2 ^ 32, e, f, g)

/-- Follows the spec's words (§4.3): one compression step — 64-word schedule,
64 T1/T2 rounds over working variables seeded from the state (a maps to index
0, ..., h to index 7), then `state'[i] = (state[i] + working[i]) mod 2^32`. -/
def compressSpec (state block : List Nat) : List Nat :=
  match (List.range 64).foldl (specRound (scheduleSpec block))
      (state.getD 0 0, state.getD 1 0, state.getD 2 0, state.getD 3 0,
       state.getD 4 0, state.getD 5 0, state.getD 6 0, state.getD 7 0) with
  | (a, b, c, d, e, f, g, h) =>
    (List.range 8).map (fun i => (state.getD i 0 + [a, b, c, d, e, f, g, h].getD i 0) % 2 ^ 32)

/-- Modelled from the spec (§4.4, §9): the driver pipeline in which the
compression loop folds every block in order, carrying the state forward, as
the spec mandates; the source's early `return` is what this is compared
against. -/
def sha256_all_blocks (message : List Nat) : Option String :=
  match padding message with
  | none => none
  | some padded_message =>
    match parse_message padded_message with
    | [] => none
    | blocks => some (String.mk (((blocks.foldl processBlock initialHash).map toHex8).flatten))

/-- The sixteen lowercase hexadecimal characters. -/
def hexAlphabet : List Char :=
  "0123456789abcdef".data

/-! ### Basic word-level lemmas -/

theorem mask32_eq_mod (a : Nat) : a &&& 0xFFFFFFFF = a % 2 ^ 32 := by
  rw [show (0xFFFFFFFF : Nat) = 2 ^ 32 - 1 from rfl]
  exact Nat.and_pow_two_sub_one_eq_mod a 32

theorem testBit_eq_false_of_ge {x : Nat} (hx : x < 2 ^ 32) {k : Nat} (hk : 32 ≤ k) :
    x.testBit k = false :=
  Nat.testBit_lt_two_pow (lt_of_lt_of_le hx (Nat.pow_le_pow_right (by norm_num) hk))

/-- C6: for `x < 2 ^ 32` and `1 ≤ n ≤ 31`, `rotr x n` is the 32-bit circular
right rotation `((x >> n) | (x << (32 - n))) % 2 ^ 32`; the result stays below
`2 ^ 32` and every bit of `x` reappears (bit `i` of the result is bit
`(i + n) % 32` of `x`); `shr x n` is the plain logical shift `x >> n`,
i.e. `x / 2 ^ n`, which discards the low `n` bits. -/
theorem rotr_is_rotation (x n : Nat) (hx : x < 2 ^ 32) (hn1 : 1 ≤ n) (hn2 : n ≤ 31) :
    rotr x n = ((x >>> n) ||| (x <<< (32 - n))) % 2 ^ 32
    ∧ rotr x n < 2 ^ 32
    ∧ (∀ i, i < 32 → (rotr x n).testBit i = x.testBit ((i + n) % 32))
    ∧ shr x n = x >>> n ∧ shr x n = x / 2 ^ n := by
  have hmask : rotr x n = (x >>> n) ||| ((x <<< (32 - n)) % 2 ^ 32) := by
    rw [rotr, mask32_eq_mod]
  have hsr : x >>> n < 2 ^ 32 := by
    rw [Nat.shiftRight_eq_div_pow]
    exact lt_of_le_of_lt (Nat.div_le_self _ _) hx
  refine ⟨?_, ?_, ?_, rfl, by rw [shr, Nat.shiftRight_eq_div_pow]⟩
  · apply Nat.eq_of_testBit_eq
    intro i
    rw [hmask]
    simp only [Nat.testBit_or, Nat.testBit_mod_two_pow, Nat.testBit_shiftRight,
      Nat.testBit_shiftLeft]
    by_cases hi : i < 32
    · simp [hi]
    · simp [hi, testBit_eq_false_of_ge hx (show 32 ≤ n + i by omega)]
  · rw [hmask]
    exact Nat.or_lt_two_pow hsr (Nat.mod_lt _ (by norm_num))
  · intro i hi
    rw [hmask]
    simp only [Nat.testBit_or, Nat.testBit_mod_two_pow, Nat.testBit_shiftRight,
      Nat.testBit_shiftLeft]
    by_cases hcase : i < 32 - n
    · have h1 : (i + n) % 32 = n + i := by omega
      have h2 : ¬(32 - n ≤ i) := by omega
      simp [hi, h1, h2]
    · have h2 : 32 - n ≤ i := by omega
      have h3 : (i + n) % 32 = i - (32 - n) := by omega
      have h4 : x.testBit (n + i) = false := testBit_eq_false_of_ge hx (by omega)
      simp [hi, h2, h3, h4]

/-- Witness for C6 at `x = 0x12345678`, `n = 7`. -/
theorem rotr_is_rotation_witness :
    ((0x12345678 : Nat) < 2 ^ 32 ∧ 1 ≤ 7 ∧ 7 ≤ 31)
    ∧ (rotr 0x12345678 7 = (((0x12345678 : Nat) >>> 7) ||| ((0x12345678 : Nat) <<< (32 - 7))) % 2 ^ 32
       ∧ rotr 0x12345678 7 < 2 ^ 32
       ∧ (∀ i, i < 32 → (rotr 0x12345678 7).testBit i = (0x12345678 : Nat).testBit ((i + 7) % 32))
       ∧ shr 0x12345678 7 = (0x12345678 : Nat) >>> 7
       ∧ shr 0x12345678 7 = 0x12345678 / 2 ^ 7) :=
  ⟨⟨by norm_num, by norm_num, by norm_num⟩,
   rotr_is_rotation 0x12345678 7 (by norm_num) (by norm_num) (by norm_num)⟩

theorem padding_overflow_none (msg : List Nat) (h : ¬ msg.length * 8 < 2 ^ 64) :
    padding msg = none := by
  have hbig : ¬(msg.length * 8 < 18446744073709551616) := by omega
  simp [padding, toBytesBE, hbig]

/-- C7: a message of `2 ^ 61` bytes or more has a bit length that does not fit
the 64-bit length field, so `padding` fails (Python `OverflowError` from
`to_bytes`, modelled as `none`) and `sha256` aborts with no digest. -/
theorem input_too_large_rejected (message : List Nat) (h : 2 ^ 61 ≤ message.length) :
    padding message = none ∧ sha256 message = none := by
  have hp : padding message = none := padding_overflow_none message (by omega)
  exact ⟨hp, by simp [sha256, hp]⟩

/-- Witness for C7 at a `2 ^ 61`-byte message of zeros. -/
theorem input_too_large_rejected_witness :
    2 ^ 61 ≤ (List.replicate (2 ^ 61) 0).length
    ∧ (padding (List.replicate (2 ^ 61) 0) = none
       ∧ sha256 (List.replicate (2 ^ 61) 0) = none) :=
  ⟨by rw [List.length_replicate],
   input_too_large_rejected _ (by rw [List.length_replicate])⟩

/-! ### Padding structure -/

theorem padZerosAux_spec : ∀ (fuel : Nat) (l : List Nat),
    (120 - l.length % 64) % 64 ≤ fuel →
    padZerosAux fuel l = l ++ List.replicate ((120 - l.length % 64) % 64) 0
  | 0, l, h => by
    have hz : (120 - l.length % 64) % 64 = 0 := Nat.le_zero.mp h
    rw [hz]
    simp [padZerosAux]
  | fuel + 1, l, h => by
    by_cases hc : (l.length * 8) % 512 = 448
    · have hz : (120 - l.length % 64) % 64 = 0 := by omega
      rw [hz]
      simp [padZerosAux, hc]
    · obtain ⟨z', hz'⟩ : ∃ z', (120 - l.length % 64) % 64 = z' + 1 :=
        ⟨(120 - l.length % 64) % 64 - 1, by omega⟩
      have h2 : (120 - (l ++ [0]).length % 64) % 64 = z' := by
        simp only [List.length_append, List.length_cons, List.length_nil]
        omega
      have h3 : padZerosAux (fuel + 1) l = padZerosAux fuel (l ++ [0]) := by
        simp [padZerosAux, hc]
      rw [h3, padZerosAux_spec fuel (l ++ [0]) (by rw [h2]; omega), h2, hz']
      simp [List.replicate_succ, List.append_assoc]

theorem fromBytesBE_map_range (n : Nat) (h : n < 2 ^ 64) :
    fromBytesBE ((List.range 8).map (fun i => n / 2 ^ (8 * (7 - i)) % 256)) = n := by
  have hr : List.range 8 = [0, 1, 2, 3, 4, 5, 6, 7] := rfl
  rw [hr]
  simp only [List.map_cons, List.map_nil, fromBytesBE, List.foldl_cons, List.foldl_nil]
  omega

theorem padding_eq_some (msg : List Nat) (h : msg.length * 8 < 2 ^ 64) :
    padding msg = some ((msg ++ [0x80]) ++ List.replicate ((120 - (msg.length + 1) % 64) % 64) 0
      ++ (List.range 8).map (fun i => msg.length * 8 / 2 ^ (8 * (7 - i)) % 256)) := by
  have h' : msg.length * 8 < 2 ^ (8 * 8) := by omega
  have hfuel : (120 - (msg ++ [0x80]).length % 64) % 64 ≤ 64 := by
    simp only [List.length_append, List.length_cons, List.length_nil]
    omega
  have hlen : (msg ++ [0x80]).length = msg.length + 1 := by simp
  rw [padding]
  simp only [toBytesBE, if_pos h']
  rw [padZerosAux_spec 64 (msg ++ [0x80]) hfuel, hlen]

/-- C4: padding appends `0x80`, then zeros until the bit length is 448 mod
512, then the original bit length as 8 big-endian bytes; the result's bit
length is a positive multiple of 512 and between 9 and 72 bytes are added. -/
theorem padding_spec (msg p : List Nat) (h : padding msg = some p) :
    (∃ z lb, toBytesBE (msg.length * 8) 8 = some lb
       ∧ lb.length = 8 ∧ fromBytesBE lb = msg.length * 8
       ∧ p = msg ++ 0x80 :: (List.replicate z 0 ++ lb)
       ∧ ((msg.length + 1 + z) * 8) % 512 = 448)
    ∧ (p.length * 8) % 512 = 0 ∧ 0 < p.length
    ∧ msg.length + 9 ≤ p.length ∧ p.length ≤ msg.length + 72 := by
  by_cases hbig : msg.length * 8 < 2 ^ 64
  · rw [padding_eq_some msg hbig] at h
    have hp : p = (msg ++ [0x80]) ++ List.replicate ((120 - (msg.length + 1) % 64) % 64) 0
        ++ (List.range 8).map (fun i => msg.length * 8 / 2 ^ (8 * (7 - i)) % 256) :=
      (Option.some.inj h).symm
    have hplen : p.length = msg.length + 1 + (120 - (msg.length + 1) % 64) % 64 + 8 := by
      rw [hp]
      simp only [List.length_append, List.length_replicate, List.length_map, List.length_range,
        List.length_cons, List.length_nil]
    refine ⟨⟨(120 - (msg.length + 1) % 64) % 64,
            (List.range 8).map (fun i => msg.length * 8 / 2 ^ (8 * (7 - i)) % 256),
            ?_, by simp, fromBytesBE_map_range _ hbig, ?_, by omega⟩,
           by omega, by omega, by omega, by omega⟩
    · simp only [toBytesBE]
      rw [if_pos (show msg.length * 8 < 2 ^ (8 * 8) by omega)]
    · rw [hp]
      simp [List.append_assoc]
  · rw [padding_overflow_none msg hbig] at h
    exact absurd h (by simp)

/-- Witness for C4 at the message `"abc"` (bytes `[97, 98, 99]`). -/
theorem padding_spec_witness :
    padding [97, 98, 99]
      = some ([97, 98, 99] ++ 0x80 :: (List.replicate 52 0 ++ [0, 0, 0, 0, 0, 0, 0, 24]))
    ∧ ((∃ z lb, toBytesBE (([97, 98, 99] : List Nat).length * 8) 8 = some lb
         ∧ lb.length = 8 ∧ fromBytesBE lb = ([97, 98, 99] : List Nat).length * 8
         ∧ ([97, 98, 99] ++ 0x80 :: (List.replicate 52 0 ++ [0, 0, 0, 0, 0, 0, 0, 24]))
             = [97, 98, 99] ++ 0x80 :: (List.replicate z 0 ++ lb)
         ∧ ((([97, 98, 99] : List Nat).length + 1 + z) * 8) % 512 = 448)
       ∧ (([97, 98, 99] ++ 0x80 :: (List.replicate 52 0 ++ [0, 0, 0, 0, 0, 0, 0, 24])).length * 8)
           % 512 = 0
       ∧ 0 < ([97, 98, 99] ++ 0x80 :: (List.replicate 52 0 ++ [0, 0, 0, 0, 0, 0, 0, 24])).length
       ∧ ([97, 98, 99] : List Nat).length + 9
           ≤ ([97, 98, 99] ++ 0x80 :: (List.replicate 52 0 ++ [0, 0, 0, 0, 0, 0, 0, 24])).length
       ∧ ([97, 98, 99] ++ 0x80 :: (List.replicate 52 0 ++ [0, 0, 0, 0, 0, 0, 0, 24])).length
           ≤ ([97, 98, 99] : List Nat).length + 72) :=
  ⟨by decide, padding_spec _ _ (by decide)⟩

/-- C10: every padded message is at least 64 bytes, so the parser returns at
least one block and the per-block loop of `sha256_hash_computation` runs at
least once: through the `sha256` pipeline the `None` fall-through of
`sha256_hash_computation` is unreachable. -/
theorem hash_computation_reached (msg p : List Nat) (h : padding msg = some p) :
    64 ≤ p.length ∧ parse_message p ≠ []
    ∧ sha256_hash_computation (parse_message p) ≠ none := by
  by_cases hbig : msg.length * 8 < 2 ^ 64
  · rw [padding_eq_some msg hbig] at h
    have hp : p = (msg ++ [0x80]) ++ List.replicate ((120 - (msg.length + 1) % 64) % 64) 0
        ++ (List.range 8).map (fun i => msg.length * 8 / 2 ^ (8 * (7 - i)) % 256) :=
      (Option.some.inj h).symm
    have hplen : p.length = msg.length + 1 + (120 - (msg.length + 1) % 64) % 64 + 8 := by
      rw [hp]
      simp only [List.length_append, List.length_replicate, List.length_map, List.length_range,
        List.length_cons, List.length_nil]
    have h64 : 64 ≤ p.length := by omega
    have hpm : (parse_message p).length = (p.length + 63) / 64 := by
      simp [parse_message]
    have hne : parse_message p ≠ [] := by
      intro hnil
      rw [hnil] at hpm
      simp at hpm
      omega
    refine ⟨h64, hne, ?_⟩
    cases hq : parse_message p with
    | nil => exact absurd hq hne
    | cons b bs => simp [sha256_hash_computation]
  · rw [padding_overflow_none msg hbig] at h
    exact absurd h (by simp)

/-- Witness for C10 at the empty message, whose padded form is
`0x80` followed by 63 zero bytes. -/
theorem hash_computation_reached_witness :
    padding ([] : List Nat) = some (0x80 :: List.replicate 63 0)
    ∧ (64 ≤ (0x80 :: List.replicate 63 0 : List Nat).length
       ∧ parse_message (0x80 :: List.replicate 63 0) ≠ []
       ∧ sha256_hash_computation (parse_message (0x80 :: List.replicate 63 0)) ≠ none) :=
  ⟨by decide, hash_computation_reached [] (0x80 :: List.replicate 63 0) (by decide)⟩

/-! ### Block parsing -/

theorem getD_map_range {β : Type} (f : Nat → β) (d : β) {i n : Nat} (h : i < n) :
    ((List.range n).map f).getD i d = f i := by
  rw [List.getD_eq_getElem _ _ (by simpa using h)]
  simp

theorem drop_take_four (l : List Nat) (m : Nat) (h : m + 4 ≤ l.length) :
    (l.drop m).take 4 = [l.getD m 0, l.getD (m + 1) 0, l.getD (m + 2) 0, l.getD (m + 3) 0] := by
  have h0 : m < l.length := by omega
  have h1 : m + 1 < l.length := by omega
  have h2 : m + 2 < l.length := by omega
  have h3 : m + 3 < l.length := by omega
  rw [List.drop_eq_getElem_cons h0, List.drop_eq_getElem_cons h1, List.drop_eq_getElem_cons h2,
    List.drop_eq_getElem_cons h3, List.getD_eq_getElem l 0 h0, List.getD_eq_getElem l 0 h1,
    List.getD_eq_getElem l 0 h2, List.getD_eq_getElem l 0 h3]
  rfl

theorem parse_message_length (l : List Nat) :
    (parse_message l).length = (l.length + 63) / 64 := by
  simp [parse_message]

theorem parse_message_block_length (l : List Nat) :
    ∀ b ∈ parse_message l, b.length = 16 := by
  intro b hb
  simp only [parse_message, List.mem_map] at hb
  obtain ⟨i, _, rfl⟩ := hb
  simp

theorem parse_message_word (l : List Nat) (i j : Nat) (hi : i < (l.length + 63) / 64)
    (hj : j < 16) (hb : 64 * i + 4 * j + 4 ≤ l.length) :
    ((parse_message l).getD i []).getD j 0
      = l.getD (64 * i + 4 * j) 0 * 2 ^ 24 + l.getD (64 * i + 4 * j + 1) 0 * 2 ^ 16
        + l.getD (64 * i + 4 * j + 2) 0 * 2 ^ 8 + l.getD (64 * i + 4 * j + 3) 0 := by
  rw [parse_message, getD_map_range _ _ hi, getD_map_range _ _ hj]
  have hslice : (((l.drop (64 * i)).take 64).drop (4 * j)).take 4
      = (l.drop (64 * i + 4 * j)).take 4 := by
    rw [List.drop_take, List.take_take, List.drop_drop]
    congr 1
    omega
  rw [hslice, drop_take_four l _ (by omega)]
  simp only [fromBytesBE, List.foldl_cons, List.foldl_nil]
  ring

/-- C5: on input whose byte length is a multiple of 64, `parse_message`
returns exactly `length / 64` blocks, in stream order, each of exactly 16
words, word `j` of block `i` being the big-endian value of bytes
`64 i + 4 j .. 64 i + 4 j + 3`. -/
theorem parse_message_spec (l : List Nat) (h : l.length % 64 = 0) :
    (parse_message l).length = l.length / 64
    ∧ (∀ b ∈ parse_message l, b.length = 16)
    ∧ ∀ i j, i < l.length / 64 → j < 16 →
        ((parse_message l).getD i []).getD j 0
          = l.getD (64 * i + 4 * j) 0 * 2 ^ 24 + l.getD (64 * i + 4 * j + 1) 0 * 2 ^ 16
            + l.getD (64 * i + 4 * j + 2) 0 * 2 ^ 8 + l.getD (64 * i + 4 * j + 3) 0 := by
  have hl := parse_message_length l
  refine ⟨by omega, parse_message_block_length l, ?_⟩
  intro i j hi hj
  exact parse_message_word l i j (by omega) hj (by omega)

/-- Witness for C5 at the 64-byte input `List.range 64`. -/
theorem parse_message_spec_witness :
    (List.range 64).length % 64 = 0
    ∧ ((parse_message (List.range 64)).length = (List.range 64).length / 64
       ∧ (∀ b ∈ parse_message (List.range 64), b.length = 16)
       ∧ ∀ i j, i < (List.range 64).length / 64 → j < 16 →
           ((parse_message (List.range 64)).getD i []).getD j 0
             = (List.range 64).getD (64 * i + 4 * j) 0 * 2 ^ 24
               + (List.range 64).getD (64 * i + 4 * j + 1) 0 * 2 ^ 16
               + (List.range 64).getD (64 * i + 4 * j + 2) 0 * 2 ^ 8
               + (List.range 64).getD (64 * i + 4 * j + 3) 0) :=
  ⟨by decide, parse_message_spec (List.range 64) (by decide)⟩

/-- Counterexample to C8: on the 1-byte input `[1]`, whose length is not a
multiple of 64, `parse_message` does not fail; it returns a (nonempty) block
list, reading the missing bytes of the short chunk as absent (empty 4-byte
groups give word 0). -/
theorem parse_message_bad_length_returns_blocks :
    ([1] : List Nat).length % 64 ≠ 0
    ∧ parse_message [1] = [[1, 0, 0, 0, 0, 0, 0, 0, 0, 0, 0, 0, 0, 0, 0, 0]]
    ∧ parse_message [1] ≠ [] := by decide

/-- C8 amended: `parse_message` never fails; on input whose length is not a
multiple of 64 it still returns blocks — `length / 64 + 1` of them, each of
16 words, the trailing short chunk zero-extended by the big-endian read of
short or empty slices. -/
theorem parse_message_total (l : List Nat) (h : l.length % 64 ≠ 0) :
    (parse_message l).length = l.length / 64 + 1
    ∧ parse_message l ≠ []
    ∧ ∀ b ∈ parse_message l, b.length = 16 := by
  have hl := parse_message_length l
  refine ⟨by omega, ?_, parse_message_block_length l⟩
  intro hnil
  rw [hnil] at hl
  simp at hl
  omega

/-- Witness for C8's amended claim at the input `[1]`. -/
theorem parse_message_total_witness :
    ([1] : List Nat).length % 64 ≠ 0
    ∧ ((parse_message [1]).length = ([1] : List Nat).length / 64 + 1
       ∧ parse_message [1] ≠ []
       ∧ ∀ b ∈ parse_message [1], b.length = 16) :=
  ⟨by decide, parse_message_total [1] (by decide)⟩

/-! ### Compression refinement -/

theorem roundStep_eq_specRound (w : List Nat) : roundStep w = specRound w := by
  funext vars t
  obtain ⟨a, b, c, d, e, f, g, h⟩ := vars
  simp only [roundStep, specRound, specT1, specT2, mask32_eq_mod]

theorem messageSchedule_aux (block : List Nat) (hlen : block.length = 16) :
    ∀ k, (List.range' 16 k).foldl (fun w t =>
        w ++ [(w.getD (t - 16) 0 + sigma0_256_small (w.getD (t - 15) 0) + w.getD (t - 7) 0
               + sigma1_256_small (w.getD (t - 2) 0)) &&& 0xFFFFFFFF]) block
      = (List.range (16 + k)).map (Wspec block)
  | 0 => by
    simp only [List.range'_zero, List.foldl_nil, Nat.add_zero]
    apply List.ext_getElem
    · simpa using hlen
    · intro i h1 h2
      simp only [List.getElem_map, List.getElem_range]
      rw [Wspec.eq_def, if_pos (by omega : i < 16), List.getD_eq_getElem block 0 h1]
  | k + 1 => by
    rw [List.range'_1_concat, List.foldl_append, messageSchedule_aux block hlen k]
    simp only [List.foldl_cons, List.foldl_nil]
    rw [(by omega : 16 + k - 16 = k), (by omega : 16 + k - 15 = k + 1),
        (by omega : 16 + k - 7 = k + 9), (by omega : 16 + k - 2 = k + 14),
        getD_map_range _ _ (by omega : k < 16 + k),
        getD_map_range _ _ (by omega : k + 1 < 16 + k),
        getD_map_range _ _ (by omega : k + 9 < 16 + k),
        getD_map_range _ _ (by omega : k + 14 < 16 + k),
        mask32_eq_mod]
    have hW : Wspec block (16 + k) = (Wspec block k + sigma0_256_small (Wspec block (k + 1))
        + Wspec block (k + 9) + sigma1_256_small (Wspec block (k + 14))) % 2 ^ 32 := by
      rw [Wspec.eq_def]
      rw [if_neg (by omega : ¬ 16 + k < 16),
          (by omega : 16 + k - 16 = k), (by omega : 16 + k - 15 = k + 1),
          (by omega : 16 + k - 7 = k + 9), (by omega : 16 + k - 2 = k + 14)]
    rw [(by omega : 16 + (k + 1) = (16 + k) + 1), List.range_succ, List.map_append,
        List.map_cons, List.map_nil, ← hW]

theorem messageSchedule_eq (block : List Nat) (hlen : block.length = 16) :
    messageSchedule block = scheduleSpec block := by
  rw [messageSchedule, scheduleSpec]
  exact messageSchedule_aux block hlen 48

/-- C3: one compression step extends the schedule to 64 words by the spec's
recurrence, runs the 64 T1/T2 rounds over working variables seeded from the
state, and returns `state'[i] = (state[i] + working[i]) mod 2^32` (a at index
0, ..., h at index 7): the source's step equals the spec's step. -/
theorem compression_step_spec (state block : List Nat) (_h8 : state.length = 8)
    (h16 : block.length = 16) :
    messageSchedule block = scheduleSpec block
    ∧ (∀ t, 16 ≤ t → t < 64 →
        (messageSchedule block).getD t 0
          = ((messageSchedule block).getD (t - 16) 0
             + sigma0_256_small ((messageSchedule block).getD (t - 15) 0)
             + (messageSchedule block).getD (t - 7) 0
             + sigma1_256_small ((messageSchedule block).getD (t - 2) 0)) % 2 ^ 32)
    ∧ processBlock state block = compressSpec state block := by
  have hsched := messageSchedule_eq block h16
  refine ⟨hsched, ?_, ?_⟩
  · intro t ht1 ht2
    rw [hsched, scheduleSpec,
        getD_map_range _ _ (by omega : t < 64), getD_map_range _ _ (by omega : t - 16 < 64),
        getD_map_range _ _ (by omega : t - 15 < 64), getD_map_range _ _ (by omega : t - 7 < 64),
        getD_map_range _ _ (by omega : t - 2 < 64)]
    rw [Wspec.eq_def, if_neg (by omega : ¬ t < 16)]
  · simp only [processBlock, compressSpec]
    rw [hsched, roundStep_eq_specRound]
    simp only [mask32_eq_mod]

/-- Witness for C3 at the initial hash state and the block `List.range 16`. -/
theorem compression_step_spec_witness :
    (initialHash.length = 8 ∧ (List.range 16).length = 16)
    ∧ (messageSchedule (List.range 16) = scheduleSpec (List.range 16)
       ∧ (∀ t, 16 ≤ t → t < 64 →
           (messageSchedule (List.range 16)).getD t 0
             = ((messageSchedule (List.range 16)).getD (t - 16) 0
                + sigma0_256_small ((messageSchedule (List.range 16)).getD (t - 15) 0)
                + (messageSchedule (List.range 16)).getD (t - 7) 0
                + sigma1_256_small ((messageSchedule (List.range 16)).getD (t - 2) 0)) % 2 ^ 32)
       ∧ processBlock initialHash (List.range 16) = compressSpec initialHash (List.range 16)) :=
  ⟨⟨by decide, by decide⟩, compression_step_spec initialHash (List.range 16) (by decide) (by decide)⟩

/-! ### Digest formatting -/

theorem processBlock_length (st block : List Nat) : (processBlock st block).length = 8 := by
  simp only [processBlock]
  generalize (List.range 64).foldl (roundStep (messageSchedule block))
      (st.getD 0 0, st.getD 1 0, st.getD 2 0, st.getD 3 0,
       st.getD 4 0, st.getD 5 0, st.getD 6 0, st.getD 7 0) = p
  obtain ⟨a, b, c, d, e, f, g, hh⟩ := p
  simp

theorem length_flatten_toHex8 (fh : List Nat) :
    ((fh.map toHex8).flatten).length = 8 * fh.length := by
  induction fh with
  | nil => rfl
  | cons x xs ih =>
    simp only [List.map_cons, List.flatten_cons, List.length_append, ih, List.length_cons]
    have hx : (toHex8 x).length = 8 := by simp [toHex8]
    omega

theorem hexDigit_mem {k : Nat} (h : k < 16) : hexDigit k ∈ hexAlphabet := by
  interval_cases k <;> decide

theorem mem_flatten_toHex8 {c : Char} {fh : List Nat}
    (h : c ∈ (fh.map toHex8).flatten) : c ∈ hexAlphabet := by
  rw [List.mem_flatten] at h
  obtain ⟨l, hl, hc⟩ := h
  rw [List.mem_map] at hl
  obtain ⟨x, _, rfl⟩ := hl
  simp only [toHex8, List.mem_map] at hc
  obtain ⟨i, _, rfl⟩ := hc
  exact hexDigit_mem (Nat.mod_lt _ (by norm_num))

/-- C9: whenever `sha256` returns a digest, it is exactly 64 lowercase hex
characters — the 8 final 32-bit state words, each rendered as 8 hex digits
with leading zeros, concatenated with no separators and no prefix. -/
theorem digest_format_spec (msg : List Nat) (d : String) (h : sha256 msg = some d) :
    d.length = 64
    ∧ (∀ c ∈ d.data, c ∈ hexAlphabet)
    ∧ ∃ pm fh, padding msg = some pm
        ∧ sha256_hash_computation (parse_message pm) = some fh
        ∧ fh.length = 8
        ∧ d = String.mk (fh.map toHex8).flatten := by
  simp only [sha256] at h
  split at h
  next hpad => exact absurd h (by simp)
  next pm hpad =>
    split at h
    next hcomp => exact absurd h (by simp)
    next fh hcomp =>
      obtain rfl : String.mk ((fh.map toHex8).flatten) = d := Option.some.inj h
      have hfh8 : fh.length = 8 := by
        rcases hq : parse_message pm with _ | ⟨b, bs⟩
        · simp [sha256_hash_computation, hq] at hcomp
        · simp only [sha256_hash_computation, hq] at hcomp
          obtain rfl := Option.some.inj hcomp
          exact processBlock_length _ _
      have hlen : (String.mk ((fh.map toHex8).flatten)).length
          = ((fh.map toHex8).flatten).length := rfl
      refine ⟨?_, ?_, pm, fh, hpad, hcomp, hfh8, rfl⟩
      · rw [hlen, length_flatten_toHex8 fh, hfh8]
      · intro c hc
        exact mem_flatten_toHex8 hc

set_option maxRecDepth 1000000

/-- Witness for C9 at the empty message. -/
theorem digest_format_spec_witness :
    sha256 [] = some "e3b0c44298fc1c149afbf4c8996fb92427ae41e4649b934ca495991b7852b855"
    ∧ (("e3b0c44298fc1c149afbf4c8996fb92427ae41e4649b934ca495991b7852b855" : String).length = 64
       ∧ (∀ c ∈ ("e3b0c44298fc1c149afbf4c8996fb92427ae41e4649b934ca495991b7852b855"
            : String).data, c ∈ hexAlphabet)
       ∧ ∃ pm fh, padding ([] : List Nat) = some pm
           ∧ sha256_hash_computation (parse_message pm) = some fh
           ∧ fh.length = 8
           ∧ ("e3b0c44298fc1c149afbf4c8996fb92427ae41e4649b934ca495991b7852b855" : String)
               = String.mk (fh.map toHex8).flatten) :=
  ⟨by decide,
   digest_format_spec ([] : List Nat)
     "e3b0c44298fc1c149afbf4c8996fb92427ae41e4649b934ca495991b7852b855" (by decide)⟩

/-! ### Known-answer digests and the multi-block bug -/

/-- Counterexample to C2: the digest of the empty input is not the claim's
quoted string, which has only 63 characters (the true digest ends in `b855`;
the quoted copy dropped the final `5`). -/
theorem sha256_empty_ne_spec_string :
    sha256 [] ≠ some "e3b0c44298fc1c149afbf4c8996fb92427ae41e4649b934ca495991b7852b85"
    ∧ ("e3b0c44298fc1c149afbf4c8996fb92427ae41e4649b934ca495991b7852b85"
        : String).length ≠ 64 := by
  refine ⟨by decide, by decide⟩

/-- C2 amended: the digests of the empty input and of `"abc"` are the full
64-character NIST values. -/
theorem sha256_known_answer_digests :
    sha256 [] = some "e3b0c44298fc1c149afbf4c8996fb92427ae41e4649b934ca495991b7852b855"
    ∧ sha256 [97, 98, 99]
        = some "ba7816bf8f01cfea414140de5dae2223b00361a396177a9cb410ff61f20015ad"
    ∧ ("e3b0c44298fc1c149afbf4c8996fb92427ae41e4649b934ca495991b7852b855"
        : String).length = 64
    ∧ ("ba7816bf8f01cfea414140de5dae2223b00361a396177a9cb410ff61f20015ad"
        : String).length = 64 := by
  refine ⟨by decide, by decide, by decide, by decide⟩

/-- C1 (code bug): the 56-byte message of `a` bytes pads to two blocks, yet
`sha256` returns the digest of the first block only; the spec-mandated fold
over every block (`sha256_all_blocks`) gives the published NIST digest, and
the two disagree. -/
theorem sha256_drops_blocks_after_first :
    (padding (List.replicate 56 97)).map (fun pm => (parse_message pm).length) = some 2
    ∧ sha256 (List.replicate 56 97)
        = some "97539b851c7ee50b0b226ec54b1f3dbbe4f116c6e49b2dd031444d1e25354f3a"
    ∧ sha256_all_blocks (List.replicate 56 97)
        = some "b35439a4ac6f0948b6d6f9e3c6af0f5f590ce20f1bde7090ef7970686ec6738a"
    ∧ ("97539b851c7ee50b0b226ec54b1f3dbbe4f116c6e49b2dd031444d1e25354f3a" : String)
        ≠ "b35439a4ac6f0948b6d6f9e3c6af0f5f590ce20f1bde7090ef7970686ec6738a" := by
  refine ⟨by decide, by decide, by decide, by decide⟩

end Sha256
